import Mathlib

/-!
Verification of the Loader schema service of raelix-gitops/pulumi.

The repository fragment under inspection contains the generated gRPC glue
`sdk/python/lib/pulumi/runtime/proto/codegen/loader_pb2_grpc.py`, embedded
below as plain data (method paths, serializer wiring, the default servicer
behaviour).  The schema-resolution core (Version Resolver, Schema Cache,
Loader Service) is not part of the visible sources; it is modelled from the
specification, definition by definition, and the claimed properties are
proved about the model.
-/

namespace Spec2Proof

/-! ### Embedding of loader_pb2_grpc.py -/

/-- The protobuf message types appearing in loader_pb2_grpc.py. -/
inductive Message
  | getSchemaRequest
  | getSchemaResponse
deriving DecidableEq, Repr

/-- Which protobuf conversion function a stub/handler references. -/
inductive ConvFun
  | serializeToString
  | fromString
deriving DecidableEq, Repr

/-- A reference to `<Message>.<ConvFun>`, e.g.
`GetSchemaRequest.SerializeToString`. -/
structure ConvRef where
  message : Message
  fn : ConvFun
deriving DecidableEq, Repr

/-- The gRPC method cardinalities. -/
inductive RpcKind
  | unaryUnary
  | unaryStream
  | streamUnary
  | streamStream
deriving DecidableEq, Repr

/-- A client-side callable produced by `channel.unary_unary(...)`. -/
structure StubMethod where
  path : String
  kind : RpcKind
  requestSerializer : ConvRef
  responseDeserializer : ConvRef
deriving DecidableEq, Repr

/-- The `LoaderStub` object: its constructor installs exactly the field
`GetSchema`. -/
structure LoaderStub where
  GetSchema : StubMethod
deriving DecidableEq, Repr

/-- `LoaderStub.__init__`: `self.GetSchema = channel.unary_unary(
'/codegen.Loader/GetSchema', request_serializer =
GetSchemaRequest.SerializeToString, response_deserializer =
GetSchemaResponse.FromString)`. -/
def LoaderStub.init : LoaderStub :=
  { GetSchema :=
      { path := "/codegen.Loader/GetSchema"
        kind := .unaryUnary
        requestSerializer := ⟨.getSchemaRequest, .serializeToString⟩
        responseDeserializer := ⟨.getSchemaResponse, .fromString⟩ } }

/-- A server-side method handler as built by
`grpc.unary_unary_rpc_method_handler`. -/
structure RpcMethodHandler where
  kind : RpcKind
  requestDeserializer : ConvRef
  responseSerializer : ConvRef
deriving DecidableEq, Repr

/-- A generic handler: a service name plus named method handlers, as built
by `grpc.method_handlers_generic_handler`. -/
structure GenericHandler where
  service : String
  methods : List (String × RpcMethodHandler)
deriving DecidableEq, Repr

/-- `add_LoaderServicer_to_server`: registers one generic handler for
service `codegen.Loader` holding the single method handler `GetSchema`,
with `GetSchemaRequest.FromString` as request deserializer and
`GetSchemaResponse.SerializeToString` as response serializer. -/
def add_LoaderServicer_to_server : GenericHandler :=
  { service := "codegen.Loader"
    methods :=
      [("GetSchema",
        { kind := .unaryUnary
          requestDeserializer := ⟨.getSchemaRequest, .fromString⟩
          responseSerializer := ⟨.getSchemaResponse, .serializeToString⟩ })] }

/-- gRPC status codes referenced by the file. -/
inductive StatusCode
  | ok
  | unimplemented
  | internal
deriving DecidableEq, Repr

/-- A servicer context: the code/details set on it via `set_code` /
`set_details`. -/
structure ServicerContext where
  code : Option StatusCode
  details : Option String
deriving DecidableEq, Repr

/-- `context.set_code`. -/
def ServicerContext.set_code (ctx : ServicerContext) (c : StatusCode) :
    ServicerContext :=
  { ctx with code := some c }

/-- `context.set_details`. -/
def ServicerContext.set_details (ctx : ServicerContext) (d : String) :
    ServicerContext :=
  { ctx with details := some d }

/-- Outcome of a Python call: either a returned value or a raised
exception (exception class name and message). -/
inductive PyOutcome (α : Type)
  | returns (value : α)
  | raises (exceptionClass : String) (msg : String)
deriving DecidableEq, Repr

/-- The wire request of `codegen.Loader/GetSchema`: a package and a
version field. -/
structure GetSchemaRequest where
  package : String
  version : String
deriving DecidableEq, Repr

/-- The wire response: the schema payload. -/
structure GetSchemaResponse where
  schema : String
deriving DecidableEq, Repr

/-- `LoaderServicer.GetSchema(self, request, context)`: sets code
UNIMPLEMENTED, sets details, and raises `NotImplementedError`.  Returns
the final context together with the call outcome. -/
def LoaderServicer.GetSchema (request : GetSchemaRequest)
    (context : ServicerContext) :
    ServicerContext × PyOutcome GetSchemaResponse :=
  let context := context.set_code .unimplemented
  let context := context.set_details "Method not implemented!"
  (context, .raises "NotImplementedError" "Method not implemented!")

/-- The experimental static helper `Loader.GetSchema`: calls
`grpc.experimental.unary_unary` with the method path and the
serializer/deserializer pair.  We record exactly that wiring. -/
def Loader.GetSchema : StubMethod :=
  { path := "/codegen.Loader/GetSchema"
    kind := .unaryUnary
    requestSerializer := ⟨.getSchemaRequest, .serializeToString⟩
    responseDeserializer := ⟨.getSchemaResponse, .fromString⟩ }

/-! ### Version Resolver

Modelled from the spec: the Version Resolver component
(`resolve(name, constraint)`) is not present in the visible sources; the
definitions below follow spec section 4.1 (semantic-version ordering with
pre-release segments before the corresponding release; absent/empty
constraint means latest; exact constraints need a byte-exact match; range
constraints pick the highest matching version; NotFound otherwise). -/

/-- A parsed semantic version: `major.minor.patch` with an optional
pre-release segment (`none` means a plain release). -/
structure SemVer where
  major : Nat
  minor : Nat
  patch : Nat
  pre : Option String
deriving DecidableEq, Repr

/-- Lexicographic strict order on character lists (shorter prefix first),
comparing characters by code point. -/
def charsLt : List Char → List Char → Bool
  | [], [] => false
  | [], _ :: _ => true
  | _ :: _, [] => false
  | c :: cs, d :: ds => decide (c < d) || (c == d && charsLt cs ds)

/-- Lexicographic strict order on strings. -/
def strLt (x y : String) : Bool := charsLt x.toList y.toList

/-- Ordering of pre-release segments: a pre-release sorts before the
corresponding release; two pre-releases compare by their string order. -/
def SemVer.preLt : Option String → Option String → Bool
  | some _, none => true
  | some x, some y => strLt x y
  | none, _ => false

/-- Strict semantic-version ordering: major, then minor, then patch, then
pre-release (pre-release before release). -/
def SemVer.lt (a b : SemVer) : Bool :=
  decide (a.major < b.major) ||
    (a.major == b.major &&
      (decide (a.minor < b.minor) ||
        (a.minor == b.minor &&
          (decide (a.patch < b.patch) ||
            (a.patch == b.patch && SemVer.preLt a.pre b.pre)))))

/-- Split a character list at every occurrence of `sep` (no separator
yields one group). -/
def splitOnChar (sep : Char) : List Char → List (List Char)
  | [] => [[]]
  | c :: rest =>
    match splitOnChar sep rest with
    | [] => if c = sep then [[], []] else [[c]]
    | g :: gs => if c = sep then [] :: g :: gs else (c :: g) :: gs

/-- Split a character list at the first occurrence of `sep`, if any. -/
def splitFirst (sep : Char) : List Char → List Char × Option (List Char)
  | [] => ([], none)
  | c :: rest =>
    if c = sep then ([], some rest)
    else
      let (a, b) := splitFirst sep rest
      (c :: a, b)

/-- Parse a non-empty all-digit character list as a decimal number. -/
def digitsToNat (cs : List Char) : Option Nat :=
  if cs.isEmpty then none
  else if cs.all (fun c => c.isDigit) then
    some (cs.foldl (fun n c => n * 10 + (c.toNat - 48)) 0)
  else none

/-- Parse a version string `A.B.C` or `A.B.C-pre` (the pre-release
segment is everything after the first dash). -/
def parseVersion (s : String) : Option SemVer :=
  let (core, preChars) := splitFirst '-' s.toList
  let pre : Option String := preChars.map String.mk
  match splitOnChar '.' core with
  | [a, b, c] =>
    match digitsToNat a, digitsToNat b, digitsToNat c with
    | some x, some y, some z => some ⟨x, y, z, pre⟩
    | _, _, _ => none
  | _ => none

/-- A parsed version constraint: absent/empty means latest; `N.x` is a
range over major version `N`; otherwise an exact version string. -/
inductive Constraint
  | latest
  | exact (v : String)
  | range (major : Nat)
deriving DecidableEq, Repr

/-- Parse a constraint string; `""` means latest, `N.x` is a range, a
version literal is an exact constraint, anything else is malformed. -/
def parseConstraint (s : String) : Option Constraint :=
  if s = "" then some .latest
  else
    match splitOnChar '.' s.toList with
    | [a, ['x']] => (digitsToNat a).map Constraint.range
    | _ => if (parseVersion s).isSome then some (.exact s) else none

/-- Errors of the Version Resolver. -/
inductive ResolveError
  | notFound
  | ambiguousConstraint
deriving DecidableEq, Repr

instance {ε α : Type} [DecidableEq ε] [DecidableEq α] :
    DecidableEq (Except ε α) := fun x y =>
  match x, y with
  | .ok a, .ok b =>
    if h : a = b then .isTrue (congrArg Except.ok h)
    else .isFalse fun hc => h (Except.ok.inj hc)
  | .error a, .error b =>
    if h : a = b then .isTrue (congrArg Except.error h)
    else .isFalse fun hc => h (Except.error.inj hc)
  | .ok _, .error _ => .isFalse fun hc => Except.noConfusion hc
  | .error _, .ok _ => .isFalse fun hc => Except.noConfusion hc

/-- The advertised version strings paired with their parses (unparseable
strings are skipped). -/
def parsedVersions (versions : List String) : List (String × SemVer) :=
  versions.filterMap fun s => (parseVersion s).map fun v => (s, v)

/-- Highest element of a list of parsed versions under `SemVer.lt`
(first among ties). -/
def maxVersion : List (String × SemVer) → Option (String × SemVer)
  | [] => none
  | p :: rest =>
    match maxVersion rest with
    | none => some p
    | some q => if SemVer.lt p.2 q.2 then some q else some p

/-- `resolve`: pick the concrete version to serve among the versions the
Schema Store advertises, per the constraint. -/
def resolve (constraint : Constraint) (versions : List String) :
    Except ResolveError String :=
  match constraint with
  | .latest =>
    match maxVersion (parsedVersions versions) with
    | some p => .ok p.1
    | none => .error .notFound
  | .exact v => if v ∈ versions then .ok v else .error .notFound
  | .range m =>
    match maxVersion ((parsedVersions versions).filter
        fun p => p.2.major == m) with
    | some p => .ok p.1
    | none => .error .notFound

/-! ### Schema Cache

Modelled from the spec: the Schema Cache component (`getOrFetch`,
single-flight collapsing, byte-budget LRU eviction) is not present in the
visible sources; the definitions below follow spec sections 3, 4.2 and 5
(Pending/Ready entries with waiter sets, exactly one fetch per key while
Pending, fan-out of one result to all waiters, eviction of Ready entries
in ascending `lastAccessTime` order until under budget, Pending entries
never evicted, failures not cached). -/

/-- A cache key: (package name, concrete version). -/
abbrev Key := String × String

/-- A fetched schema document. -/
structure SchemaDocument where
  name : String
  version : String
  content : List Nat
deriving DecidableEq, Repr

/-- The byte size of a document. -/
def SchemaDocument.sizeBytes (d : SchemaDocument) : Nat := d.content.length

/-- The state of a cache entry: Pending with its waiter set, or Ready
with the fetched document.  (A failed fetch leaves no entry behind.) -/
inductive EntryState
  | pending (waiters : List Nat)
  | ready (doc : SchemaDocument)
deriving DecidableEq, Repr

/-- One cache entry. -/
structure CacheEntry where
  key : Key
  state : EntryState
  lastAccessTime : Nat
deriving DecidableEq, Repr

/-- Whether an entry is Ready. -/
def CacheEntry.isReady (e : CacheEntry) : Bool :=
  match e.state with
  | .ready _ => true
  | _ => false

/-- Whether an entry is Pending. -/
def CacheEntry.isPending (e : CacheEntry) : Bool :=
  match e.state with
  | .pending _ => true
  | _ => false

/-- The whole cache: entries, configured byte budget, a logical clock for
`lastAccessTime`, and the log of fetches issued to the Schema Store. -/
structure CacheState where
  entries : List CacheEntry
  budget : Nat
  clock : Nat
  fetchLog : List Key
deriving DecidableEq, Repr

/-- Find the entry for a key. -/
def findEntry (es : List CacheEntry) (k : Key) : Option CacheEntry :=
  es.find? fun e => decide (e.key = k)

/-- Replace the entry whose key matches `x.key` (append if absent). -/
def setEntry (es : List CacheEntry) (x : CacheEntry) : List CacheEntry :=
  match es with
  | [] => [x]
  | e :: rest => if e.key = x.key then x :: rest else e :: setEntry rest x

/-- Drop every entry for a key. -/
def removeEntry (es : List CacheEntry) (k : Key) : List CacheEntry :=
  es.filter fun e => decide (e.key ≠ k)

/-- Total cached byte size (Pending entries hold no document yet). -/
def totalBytes (es : List CacheEntry) : Nat :=
  (es.map fun e =>
    match e.state with
    | .ready d => d.sizeBytes
    | _ => 0).sum

/-- Fold step keeping the entry with the least `lastAccessTime` (first
among ties). -/
def minStep (acc : Option CacheEntry) (e : CacheEntry) : Option CacheEntry :=
  match acc with
  | none => some e
  | some m => if e.lastAccessTime < m.lastAccessTime then some e else some m

/-- The Ready entry with the least `lastAccessTime` (first among ties). -/
def minReady (es : List CacheEntry) : Option CacheEntry :=
  (es.filter CacheEntry.isReady).foldl minStep none

/-- Eviction loop: while over budget, remove the least-recently-accessed
Ready entry.  Returns the remaining entries and the evicted entries in
eviction order.  `fuel` bounds the iteration count. -/
def evictLoop (fuel : Nat) (budget : Nat) (es : List CacheEntry) :
    List CacheEntry × List CacheEntry :=
  match fuel with
  | 0 => (es, [])
  | fuel + 1 =>
    if totalBytes es ≤ budget then (es, [])
    else
      match minReady es with
      | none => (es, [])
      | some m =>
        let r := evictLoop fuel budget (es.erase m)
        (r.1, m :: r.2)

/-- Evict Ready entries in ascending `lastAccessTime` order until the
total cached byte size is within the budget. -/
def evict (budget : Nat) (es : List CacheEntry) :
    List CacheEntry × List CacheEntry :=
  evictLoop es.length budget es

/-- Result of a Schema Store fetch as fanned out to waiters. -/
inductive FetchOutcome
  | success (doc : SchemaDocument)
  | failure
deriving DecidableEq, Repr

/-- Cache events: a caller's `getOrFetch` arriving, or the in-flight
fetch for a key terminating. -/
inductive Event
  | arrive (caller : Nat) (k : Key)
  | complete (k : Key) (res : FetchOutcome)
deriving DecidableEq, Repr

/-- One step of the cache: returns the new state and the list of
(caller, result) deliveries this event produces.  An arriving caller hits
a Ready entry (result delivered at once, `lastAccessTime` refreshed),
joins a Pending entry's waiter set, or — when no entry exists — creates a
Pending entry and issues exactly one fetch.  A completing fetch delivers
the same outcome to every waiter, then stores the document (and runs
eviction) on success, or drops the entry on failure. -/
def cacheStep (s : CacheState) : Event → CacheState × List (Nat × FetchOutcome)
  | .arrive c k =>
    match findEntry s.entries k with
    | none =>
      ({ s with
          entries := s.entries ++ [⟨k, .pending [c], s.clock⟩]
          clock := s.clock + 1
          fetchLog := s.fetchLog ++ [k] }, [])
    | some e =>
      match e.state with
      | .pending ws =>
        ({ s with
            entries := setEntry s.entries ⟨k, .pending (ws ++ [c]), e.lastAccessTime⟩
            clock := s.clock + 1 }, [])
      | .ready d =>
        ({ s with
            entries := setEntry s.entries ⟨k, .ready d, s.clock⟩
            clock := s.clock + 1 }, [(c, .success d)])
  | .complete k res =>
    match findEntry s.entries k with
    | some e =>
      match e.state with
      | .pending ws =>
        match res with
        | .success d =>
          ({ s with
              entries := (evict s.budget
                (setEntry s.entries ⟨k, .ready d, s.clock⟩)).1
              clock := s.clock + 1 }, ws.map fun w => (w, res))
        | .failure =>
          ({ s with
              entries := removeEntry s.entries k
              clock := s.clock + 1 }, ws.map fun w => (w, res))
      | .ready _ => (s, [])
    | none => (s, [])

/-- The state of the entry for a key, if any. -/
def entryStateAt (s : CacheState) (k : Key) : Option EntryState :=
  (findEntry s.entries k).map CacheEntry.state

/-- Each key owns at most one entry. -/
def distinctKeys (es : List CacheEntry) : Prop :=
  (es.map CacheEntry.key).Nodup

/-! ### Loader Service

Modelled from the spec: the Loader Service (`getSchema`, request pipeline
Validate → Resolve → CacheLookup → Respond) and the Schema Store fetch
path with its single synchronous retry on Unavailable are not present in
the visible sources; the definitions below follow spec sections 4.2, 4.3,
6 and 7. -/

/-- Schema Store errors. -/
inductive StoreError
  | notFound
  | malformed
  | unavailable
deriving DecidableEq, Repr

/-- Loader Service error kinds exposed to the transport. -/
inductive ErrKind
  | invalidArgument
  | notFound
  | internal
deriving DecidableEq, Repr

/-- A Schema Store fetch oracle for one key: the outcome of attempt `n`. -/
abbrev StoreOracle := Nat → Except StoreError SchemaDocument

/-- The cache's fetch path: one fetch, retried exactly once (and only)
when the store reports Unavailable.  Returns the final outcome and the
number of store calls made. -/
def fetchWithRetry (store : StoreOracle) :
    Except StoreError SchemaDocument × Nat :=
  match store 0 with
  | .ok d => (.ok d, 1)
  | .error .unavailable =>
    match store 1 with
    | .ok d => (.ok d, 2)
    | .error e => (.error e, 2)
  | .error e => (.error e, 1)

/-- Sequential `getOrFetch` as driven by one Loader request: a Ready hit
returns the cached document (refreshing `lastAccessTime`, zero store
calls); otherwise a fresh fetch runs via `fetchWithRetry`, storing the
document (then evicting) on success and leaving no entry on failure.
Returns the result, the new cache state and the store call count. -/
def getOrFetch (store : StoreOracle) (s : CacheState) (k : Key) :
    Except StoreError SchemaDocument × CacheState × Nat :=
  match findEntry s.entries k with
  | some ⟨_, .ready d, _⟩ =>
    (.ok d,
      { s with
          entries := setEntry s.entries ⟨k, .ready d, s.clock⟩
          clock := s.clock + 1 }, 0)
  | _ =>
    match fetchWithRetry store with
    | (.ok d, n) =>
      (.ok d,
        { s with
            entries := (evict s.budget
              (setEntry s.entries ⟨k, .ready d, s.clock⟩)).1
            clock := s.clock + 1
            fetchLog := s.fetchLog ++ [k] }, n)
    | (.error e, n) =>
      (.error e,
        { s with
            entries := removeEntry s.entries k
            clock := s.clock + 1
            fetchLog := s.fetchLog ++ [k] }, n)

/-- A character allowed in a package-name segment. -/
def isNameChar (c : Char) : Bool := c.isAlphanum || c = '-'

/-- The package-name grammar: non-empty, slash-namespaced segments of
alphanumeric/hyphen characters. -/
def validName (s : String) : Bool :=
  !s.toList.isEmpty &&
    (splitOnChar '/' s.toList).all fun seg =>
      !seg.isEmpty && seg.all isNameChar

/-- The Loader's environment: the version list the store advertises per
package, and a per-(key, attempt) fetch oracle. -/
structure Env where
  listVersions : String → Except StoreError (List String)
  store : Key → StoreOracle

/-- The outcome of a `getSchema` request: result, final cache state, and
call counts against the two downstream collaborators. -/
structure LoaderOutcome where
  result : Except ErrKind (List Nat)
  cache : CacheState
  storeCalls : Nat
  listCalls : Nat
deriving Repr

/-- Map a fetch-path error to the Loader's surface: every Schema Store
fetch failure (including Unavailable after its one retry) is Internal. -/
def fetchErrToKind (_e : StoreError) : ErrKind := .internal

/-- Respond: serialize a document for transport (its bytes). -/
def respond (d : SchemaDocument) : List Nat := d.content

/-- Phases Validate → Resolve → CacheLookup of `getSchema`: everything up
to (not including) Respond.  Returns the resolved document or error, the
cache state after CacheLookup and the downstream call counts. -/
def getSchemaCore (env : Env) (req : GetSchemaRequest) (s : CacheState) :
    Except ErrKind SchemaDocument × CacheState × Nat × Nat :=
  if !validName req.package then (.error .invalidArgument, s, 0, 0)
  else
    match parseConstraint req.version with
    | none => (.error .invalidArgument, s, 0, 0)
    | some c =>
      match env.listVersions req.package with
      | .error .notFound => (.error .notFound, s, 0, 1)
      | .error _ => (.error .internal, s, 0, 1)
      | .ok versions =>
        match resolve c versions with
        | .error _ => (.error .notFound, s, 0, 1)
        | .ok v =>
          let k : Key := (req.package, v)
          match getOrFetch (env.store k) s k with
          | (.ok d, s', n) => (.ok d, s', n, 1)
          | (.error e, s', n) => (.error (fetchErrToKind e), s', n, 1)

/-- `getSchema`: the full pipeline; Respond serializes the document and
touches nothing else. -/
def getSchema (env : Env) (req : GetSchemaRequest) (s : CacheState) :
    LoaderOutcome :=
  match getSchemaCore env req s with
  | (.ok d, s', n, m) => ⟨.ok (respond d), s', n, m⟩
  | (.error e, s', n, m) => ⟨.error e, s', n, m⟩

/-! ### Theorems about the gRPC glue -/

/-- Whether a Python outcome returned a value (as opposed to raising). -/
def PyOutcome.isReturn {α : Type} : PyOutcome α → Bool
  | .returns _ => true
  | .raises _ _ => false

/-- C8: the core exposes exactly one request/response RPC operation:
the server registration installs exactly one method handler, named
`GetSchema`, of unary-unary kind, under service `codegen.Loader`, and the
client stub's single method addresses the same operation. -/
theorem c8_single_unary_getSchema_operation :
    add_LoaderServicer_to_server.service = "codegen.Loader" ∧
    add_LoaderServicer_to_server.methods.length = 1 ∧
    add_LoaderServicer_to_server.methods.map Prod.fst = ["GetSchema"] ∧
    (add_LoaderServicer_to_server.methods.map fun h => h.2.kind)
      = [.unaryUnary] ∧
    LoaderStub.init.GetSchema.kind = .unaryUnary ∧
    LoaderStub.init.GetSchema.path = "/codegen.Loader/GetSchema" := by
  decide

/-- C9: the default `LoaderServicer.GetSchema` sets status UNIMPLEMENTED
with details `Method not implemented!` on the context and raises
`NotImplementedError`; it never returns a response value. -/
theorem c9_default_servicer_unimplemented :
    ∀ (request : GetSchemaRequest) (ctx : ServicerContext),
      (LoaderServicer.GetSchema request ctx).1.code = some .unimplemented ∧
      (LoaderServicer.GetSchema request ctx).1.details
        = some "Method not implemented!" ∧
      (LoaderServicer.GetSchema request ctx).2
        = .raises "NotImplementedError" "Method not implemented!" ∧
      ((LoaderServicer.GetSchema request ctx).2).isReturn = false := by
  intro request ctx
  exact ⟨rfl, rfl, rfl, rfl⟩

/-- C10: the channel-based stub and the static helper are wired
identically — same method path `/codegen.Loader/GetSchema`, same request
serializer `GetSchemaRequest.SerializeToString`, same response
deserializer `GetSchemaResponse.FromString` — and this is the exact
mirror of the server registration's `GetSchemaRequest.FromString` /
`GetSchemaResponse.SerializeToString` pair. -/
theorem c10_stub_and_helper_mirror_server :
    LoaderStub.init.GetSchema.path = Loader.GetSchema.path ∧
    LoaderStub.init.GetSchema.path = "/codegen.Loader/GetSchema" ∧
    LoaderStub.init.GetSchema.requestSerializer
      = Loader.GetSchema.requestSerializer ∧
    LoaderStub.init.GetSchema.responseDeserializer
      = Loader.GetSchema.responseDeserializer ∧
    LoaderStub.init.GetSchema.requestSerializer
      = ⟨.getSchemaRequest, .serializeToString⟩ ∧
    LoaderStub.init.GetSchema.responseDeserializer
      = ⟨.getSchemaResponse, .fromString⟩ ∧
    (add_LoaderServicer_to_server.methods.map fun h => h.2.requestDeserializer)
      = [⟨.getSchemaRequest, .fromString⟩] ∧
    (add_LoaderServicer_to_server.methods.map fun h => h.2.responseSerializer)
      = [⟨.getSchemaResponse, .serializeToString⟩] := by
  decide

/-! ### Theorems about the Loader Service pipeline -/

/-- An empty cache with a large byte budget, for concrete scenarios. -/
def cache0 : CacheState := ⟨[], 1000, 0, []⟩

/-- An environment whose store is always Unavailable and advertises only
version 0.9.0. -/
def envU : Env :=
  { listVersions := fun _ => .ok ["0.9.0"]
    store := fun _ _ => .error .unavailable }

/-- A store oracle that always reports Unavailable. -/
def storeU : StoreOracle := fun _ => .error .unavailable

theorem fetchWithRetry_calls_pos (st : StoreOracle) :
    1 ≤ (fetchWithRetry st).2 := by
  unfold fetchWithRetry
  cases h0 : st 0 with
  | ok d => simp
  | error e =>
    cases e
    · simp
    · simp
    · cases h1 : st 1 with
      | ok d => simp
      | error e2 => simp

theorem findEntry_removeEntry_self (es : List CacheEntry) (k : Key) :
    findEntry (removeEntry es k) k = none := by
  induction es with
  | nil => rfl
  | cons e rest ih =>
    by_cases h : e.key = k
    · simpa [removeEntry, List.filter_cons, h] using ih
    · simpa [removeEntry, findEntry, List.filter_cons, List.find?_cons, h]
        using ih

theorem getOrFetch_fresh_calls (store : StoreOracle) (s : CacheState)
    (k : Key) (h : findEntry s.entries k = none) :
    (getOrFetch store s k).2.2 = (fetchWithRetry store).2 := by
  unfold getOrFetch
  rw [h]
  rcases hf : fetchWithRetry store with ⟨r, n⟩
  cases r <;> simp [hf]

/-- C5: an input whose package name is empty or fails the package-name
grammar, or whose constraint string is malformed, is rejected as
InvalidArgument with zero Schema Store and zero Version Resolver calls
and an untouched cache. -/
theorem c5_invalid_input_no_downstream_calls :
    ∀ (env : Env) (req : GetSchemaRequest) (s : CacheState),
      validName req.package = false ∨ parseConstraint req.version = none →
      getSchema env req s = ⟨.error .invalidArgument, s, 0, 0⟩ := by
  intro env req s h
  rcases h with h | h
  · simp [getSchema, getSchemaCore, h]
  · by_cases hv : validName req.package
    · simp [getSchema, getSchemaCore, hv, h]
    · simp [getSchema, getSchemaCore, hv]

theorem c5_invalid_input_no_downstream_calls_witness :
    getSchema envU ⟨"bad name!", ""⟩ cache0
      = ⟨.error .invalidArgument, cache0, 0, 0⟩ ∧
    getSchema envU ⟨"acme/widgets", "1.2.3.4!"⟩ cache0
      = ⟨.error .invalidArgument, cache0, 0, 0⟩ := by
  refine ⟨?_, ?_⟩
  · exact c5_invalid_input_no_downstream_calls envU ⟨"bad name!", ""⟩ cache0
      (Or.inl (by decide))
  · exact c5_invalid_input_no_downstream_calls envU ⟨"acme/widgets", "1.2.3.4!"⟩
      cache0 (Or.inr (by decide))

/-- C7: the Respond step only serializes the resolved document — the
cache state and the downstream call counts of `getSchema` are exactly
those left by the CacheLookup phase, for every request. -/
theorem c7_respond_does_not_mutate_cache :
    ∀ (env : Env) (req : GetSchemaRequest) (s : CacheState),
      (getSchema env req s).cache = (getSchemaCore env req s).2.1 ∧
      (getSchema env req s).storeCalls = (getSchemaCore env req s).2.2.1 ∧
      (getSchema env req s).listCalls = (getSchemaCore env req s).2.2.2 ∧
      (getSchema env req s).result
        = Except.map respond (getSchemaCore env req s).1 := by
  intro env req s
  rcases h : getSchemaCore env req s with ⟨r, s', n, m⟩
  cases r <;> simp [getSchema, h, Except.map]

/-- C4: a store failing Unavailable is retried exactly once inside the
cache's fetch path; a second failure surfaces as the error (mapped to
Internal above the cache), the cache holds no entry for the key
afterwards, and the next `getOrFetch` for the key starts a fresh fetch
(at least one new store call); concretely, `getSchema` then returns
Internal with exactly two store calls in total. -/
theorem c4_unavailable_retried_once_then_internal :
    (∀ (store : StoreOracle) (s : CacheState) (k : Key),
      store 0 = .error .unavailable →
      store 1 = .error .unavailable →
      findEntry s.entries k = none →
      (getOrFetch store s k).1 = .error .unavailable ∧
      (getOrFetch store s k).2.2 = 2 ∧
      findEntry ((getOrFetch store s k).2.1).entries k = none ∧
      fetchErrToKind .unavailable = .internal ∧
      ∀ store2 : StoreOracle,
        1 ≤ (getOrFetch store2 (getOrFetch store s k).2.1 k).2.2) ∧
    (getSchema envU ⟨"acme/widgets", ""⟩ cache0).result = .error .internal ∧
    (getSchema envU ⟨"acme/widgets", ""⟩ cache0).storeCalls = 2 ∧
    findEntry (getSchema envU ⟨"acme/widgets", ""⟩ cache0).cache.entries
      ("acme/widgets", "0.9.0") = none := by
  refine ⟨?_, by decide, by decide, by decide⟩
  intro store s k h0 h1 hk
  have hfetch : fetchWithRetry store = (.error .unavailable, 2) := by
    simp [fetchWithRetry, h0, h1]
  have hgof : getOrFetch store s k
      = (.error .unavailable,
          { s with
              entries := removeEntry s.entries k
              clock := s.clock + 1
              fetchLog := s.fetchLog ++ [k] }, 2) := by
    simp [getOrFetch, hk, hfetch]
  refine ⟨by simp [hgof], by simp [hgof], ?_, rfl, ?_⟩
  · simp [hgof, findEntry_removeEntry_self]
  · intro store2
    have hnone : findEntry ((getOrFetch store s k).2.1).entries k = none := by
      simp [hgof, findEntry_removeEntry_self]
    rw [getOrFetch_fresh_calls store2 _ _ hnone]
    exact fetchWithRetry_calls_pos store2

theorem c4_unavailable_retried_once_then_internal_witness :
    (getOrFetch storeU cache0 ("acme/widgets", "0.9.0")).1
      = .error .unavailable ∧
    (getOrFetch storeU cache0 ("acme/widgets", "0.9.0")).2.2 = 2 ∧
    findEntry ((getOrFetch storeU cache0 ("acme/widgets", "0.9.0")).2.1).entries
      ("acme/widgets", "0.9.0") = none := by
  have h := (c4_unavailable_retried_once_then_internal).1 storeU cache0
    ("acme/widgets", "0.9.0") rfl rfl rfl
  exact ⟨h.1, h.2.1, h.2.2.1⟩

/-! ### Ordering lemmas for the Version Resolver -/

theorem charsLt_trans (a : List Char) : ∀ b c,
    charsLt a b = true → charsLt b c = true → charsLt a c = true := by
  induction a with
  | nil =>
    intro b c hab hbc
    cases b with
    | nil => simp [charsLt] at hab
    | cons y ys =>
      cases c with
      | nil => simp [charsLt] at hbc
      | cons z zs => simp [charsLt]
  | cons x xs ih =>
    intro b c hab hbc
    cases b with
    | nil => simp [charsLt] at hab
    | cons y ys =>
      cases c with
      | nil => simp [charsLt] at hbc
      | cons z zs =>
        simp only [charsLt, Bool.or_eq_true, Bool.and_eq_true,
          decide_eq_true_eq, beq_iff_eq] at hab hbc ⊢
        rcases hab with h1 | ⟨hxy, h2⟩
        · rcases hbc with g1 | ⟨hyz, g2⟩
          · exact Or.inl (lt_trans h1 g1)
          · exact Or.inl (hyz ▸ h1)
        · rcases hbc with g1 | ⟨hyz, g2⟩
          · exact Or.inl (by rw [hxy]; exact g1)
          · exact Or.inr ⟨hxy.trans hyz, ih ys zs h2 g2⟩

theorem charsLt_irrefl (a : List Char) : charsLt a a = false := by
  induction a with
  | nil => rfl
  | cons x xs ih => simp [charsLt, ih]

theorem charsLt_eq_of_not_lt (a : List Char) : ∀ b,
    charsLt a b = false → charsLt b a = false → a = b := by
  induction a with
  | nil =>
    intro b hab _
    cases b with
    | nil => rfl
    | cons y ys => simp [charsLt] at hab
  | cons x xs ih =>
    intro b hab hba
    cases b with
    | nil => simp [charsLt] at hba
    | cons y ys =>
      simp only [charsLt, Bool.or_eq_false_iff, Bool.and_eq_false_iff,
        decide_eq_false_iff_not, beq_eq_false_iff_ne, ne_eq] at hab hba
      have hxy : x = y := by
        rcases hab with ⟨h1, _⟩
        rcases hba with ⟨h2, _⟩
        exact le_antisymm (not_lt.mp h2) (not_lt.mp h1)
      subst hxy
      rcases hab.2 with h | h
      · exact absurd rfl h
      · rcases hba.2 with g | g
        · exact absurd rfl g
        · rw [ih ys h g]

theorem strLt_trans (x y z : String) :
    strLt x y = true → strLt y z = true → strLt x z = true :=
  charsLt_trans x.toList y.toList z.toList

theorem strLt_irrefl (x : String) : strLt x x = false :=
  charsLt_irrefl x.toList

theorem strLt_eq_of_not_lt (x y : String) :
    strLt x y = false → strLt y x = false → x = y := by
  intro h1 h2
  have := charsLt_eq_of_not_lt x.toList y.toList h1 h2
  cases x; cases y
  exact congrArg String.mk this

theorem preLt_trans (a b c : Option String) :
    SemVer.preLt a b = true → SemVer.preLt b c = true →
    SemVer.preLt a c = true := by
  cases a with
  | none => intro h _; simp [SemVer.preLt] at h
  | some x =>
    cases b with
    | none => intro _ h; simp [SemVer.preLt] at h
    | some y =>
      cases c with
      | none => intro _ _; rfl
      | some z => exact fun h g => strLt_trans x y z h g

theorem preLt_irrefl (a : Option String) : SemVer.preLt a a = false := by
  cases a with
  | none => rfl
  | some x => exact strLt_irrefl x

theorem preLt_eq_of_not_lt (a b : Option String) :
    SemVer.preLt a b = false → SemVer.preLt b a = false → a = b := by
  cases a with
  | none =>
    cases b with
    | none => intro _ _; rfl
    | some y => intro _ h; simp [SemVer.preLt] at h
  | some x =>
    cases b with
    | none => intro h _; simp [SemVer.preLt] at h
    | some y => exact fun h g => congrArg some (strLt_eq_of_not_lt x y h g)

theorem semVerLt_trans (a b c : SemVer) :
    SemVer.lt a b = true → SemVer.lt b c = true → SemVer.lt a c = true := by
  simp only [SemVer.lt, Bool.or_eq_true, Bool.and_eq_true,
    decide_eq_true_eq, beq_iff_eq]
  intro hab hbc
  rcases hab with h1 | ⟨e1, hab⟩
  · rcases hbc with g1 | ⟨f1, _⟩
    · exact Or.inl (lt_trans h1 g1)
    · exact Or.inl (f1 ▸ h1)
  · rcases hbc with g1 | ⟨f1, hbc⟩
    · exact Or.inl (e1 ▸ g1)
    · refine Or.inr ⟨e1.trans f1, ?_⟩
      rcases hab with h2 | ⟨e2, hab⟩
      · rcases hbc with g2 | ⟨f2, _⟩
        · exact Or.inl (lt_trans h2 g2)
        · exact Or.inl (f2 ▸ h2)
      · rcases hbc with g2 | ⟨f2, hbc⟩
        · exact Or.inl (e2 ▸ g2)
        · refine Or.inr ⟨e2.trans f2, ?_⟩
          rcases hab with h3 | ⟨e3, hab⟩
          · rcases hbc with g3 | ⟨f3, _⟩
            · exact Or.inl (lt_trans h3 g3)
            · exact Or.inl (f3 ▸ h3)
          · rcases hbc with g3 | ⟨f3, hbc⟩
            · exact Or.inl (e3 ▸ g3)
            · exact Or.inr ⟨e3.trans f3, preLt_trans _ _ _ hab hbc⟩

theorem semVerLt_irrefl (a : SemVer) : SemVer.lt a a = false := by
  simp [SemVer.lt, preLt_irrefl]

theorem semVerLt_asymm (a b : SemVer) (h : SemVer.lt a b = true) :
    SemVer.lt b a = false := by
  cases hba : SemVer.lt b a with
  | false => rfl
  | true =>
    have := semVerLt_trans a b a h hba
    rw [semVerLt_irrefl] at this
    exact absurd this (by simp)

theorem semVerLt_eq_of_not_lt (a b : SemVer) (h1 : SemVer.lt a b = false)
    (h2 : SemVer.lt b a = false) : a = b := by
  simp only [SemVer.lt, Bool.or_eq_false_iff, Bool.and_eq_false_iff,
    decide_eq_false_iff_not, beq_eq_false_iff_ne, ne_eq, not_lt] at h1 h2
  obtain ⟨hm1, h1'⟩ := h1
  obtain ⟨hm2, h2'⟩ := h2
  have hma : a.major = b.major := le_antisymm hm2 hm1
  rcases h1' with h | h1' ; · exact absurd hma h
  rcases h2' with h | h2' ; · exact absurd hma.symm h
  obtain ⟨hn1, h1''⟩ := h1'
  obtain ⟨hn2, h2''⟩ := h2'
  have hmi : a.minor = b.minor := le_antisymm hn2 hn1
  rcases h1'' with h | h1'' ; · exact absurd hmi h
  rcases h2'' with h | h2'' ; · exact absurd hmi.symm h
  obtain ⟨hp1, h1'''⟩ := h1''
  obtain ⟨hp2, h2'''⟩ := h2''
  have hpa : a.patch = b.patch := le_antisymm hp2 hp1
  rcases h1''' with h | h1''' ; · exact absurd hpa h
  rcases h2''' with h | h2''' ; · exact absurd hpa.symm h
  have hpre : a.pre = b.pre := preLt_eq_of_not_lt a.pre b.pre h1''' h2'''
  cases a; cases b
  simp_all

theorem semVerLt_not_lt_trans (p q r : SemVer)
    (h1 : SemVer.lt p q = false) (h2 : SemVer.lt q r = false) :
    SemVer.lt p r = false := by
  cases hpr : SemVer.lt p r with
  | false => rfl
  | true =>
    cases hqp : SemVer.lt q p with
    | true =>
      have := semVerLt_trans q p r hqp hpr
      rw [h2] at this
      exact absurd this (by simp)
    | false =>
      have : p = q := semVerLt_eq_of_not_lt p q h1 hqp
      rw [this, h2] at hpr
      exact absurd hpr (by simp)

theorem maxVersion_isSome (p : String × SemVer) (vs : List (String × SemVer)) :
    (maxVersion (p :: vs)).isSome = true := by
  unfold maxVersion
  cases maxVersion vs with
  | none => rfl
  | some q => dsimp only; split <;> rfl

theorem maxVersion_spec (vs : List (String × SemVer)) :
    ∀ q, maxVersion vs = some q →
      q ∈ vs ∧ ∀ p ∈ vs, SemVer.lt q.2 p.2 = false := by
  induction vs with
  | nil => intro q h; exact absurd h (by simp [maxVersion])
  | cons p rest ih =>
    intro q h
    unfold maxVersion at h
    cases hr : maxVersion rest with
    | none =>
      rw [hr] at h
      cases rest with
      | nil =>
        have heq : p = q := by simpa using h
        refine ⟨?_, ?_⟩
        · rw [← heq]; exact List.mem_singleton.mpr rfl
        · intro r hr'
          have hrp : r = p := by simpa using hr'
          rw [← heq, hrp]
          exact semVerLt_irrefl p.2
      | cons r rest' =>
        have := maxVersion_isSome r rest'
        rw [hr] at this
        exact absurd this (by simp)
    | some m =>
      rw [hr] at h
      obtain ⟨hmem, hub⟩ := ih m hr
      dsimp only at h
      by_cases hlt : SemVer.lt p.2 m.2 = true
      · rw [if_pos hlt] at h
        have heq : m = q := by simpa using h
        refine ⟨?_, ?_⟩
        · rw [← heq]; exact List.mem_cons_of_mem _ hmem
        · intro r hr'
          rw [← heq]
          rcases List.mem_cons.mp hr' with hcase | hr''
          · rw [hcase]; exact semVerLt_asymm _ _ hlt
          · exact hub r hr''
      · rw [if_neg hlt] at h
        have heq : p = q := by simpa using h
        refine ⟨?_, ?_⟩
        · rw [← heq]; exact List.mem_cons_self _ _
        · intro r hr'
          rw [← heq]
          rcases List.mem_cons.mp hr' with hcase | hr''
          · rw [hcase]; exact semVerLt_irrefl p.2
          · exact semVerLt_not_lt_trans p.2 m.2 r.2
              (by simpa using hlt) (hub r hr'')

/-- The version set of the spec's resolution scenario. -/
def exampleVersions : List String := ["1.0.0", "1.2.0", "2.0.0-beta", "2.0.0"]

/-- C2: on versions {1.0.0, 1.2.0, 2.0.0-beta, 2.0.0}, an absent/empty
constraint resolves to 2.0.0, `1.x` resolves to 1.2.0, `3.0.0` fails
NotFound; in general an absent constraint picks a version no other
advertised version exceeds in the semantic-version order, in which a
pre-release sorts before the corresponding release. -/
theorem c2_version_resolution :
    resolve .latest exampleVersions = .ok "2.0.0" ∧
    parseConstraint "" = some .latest ∧
    parseConstraint "1.x" = some (.range 1) ∧
    resolve (.range 1) exampleVersions = .ok "1.2.0" ∧
    parseConstraint "3.0.0" = some (.exact "3.0.0") ∧
    resolve (.exact "3.0.0") exampleVersions = .error .notFound ∧
    (∀ (x : String) (ma mi pa : Nat),
      SemVer.lt ⟨ma, mi, pa, some x⟩ ⟨ma, mi, pa, none⟩ = true) ∧
    ∀ (versions : List String) (q : String),
      resolve .latest versions = .ok q →
      ∃ v, (q, v) ∈ parsedVersions versions ∧
        ∀ p ∈ parsedVersions versions, SemVer.lt v p.2 = false := by
  refine ⟨by decide, by decide, by decide, by decide, by decide, by decide,
    ?_, ?_⟩
  · intro x ma mi pa
    simp [SemVer.lt, SemVer.preLt]
  · intro versions q h
    unfold resolve at h
    cases hm : maxVersion (parsedVersions versions) with
    | none => rw [hm] at h; exact absurd h (by simp)
    | some m =>
      rw [hm] at h
      obtain ⟨hmem, hub⟩ := maxVersion_spec _ m hm
      obtain rfl : m.1 = q := by simpa using h
      exact ⟨m.2, by simpa using hmem, hub⟩

theorem c2_version_resolution_witness :
    SemVer.lt ⟨2, 0, 0, some "beta"⟩ ⟨2, 0, 0, none⟩ = true ∧
    ∃ v, ("2.0.0", v) ∈ parsedVersions exampleVersions ∧
      ∀ p ∈ parsedVersions exampleVersions, SemVer.lt v p.2 = false := by
  refine ⟨c2_version_resolution.2.2.2.2.2.2.1 "beta" 2 0 0, ?_⟩
  exact c2_version_resolution.2.2.2.2.2.2.2 exampleVersions "2.0.0" (by decide)

/-! ### Eviction lemmas -/

theorem isReady_not_isPending (e : CacheEntry) (h : e.isReady = true) :
    e.isPending = false := by
  rcases e with ⟨k, st, t⟩
  cases st <;> simp [CacheEntry.isReady, CacheEntry.isPending] at h ⊢

theorem minFold_isSome (l : List CacheEntry) : ∀ m : CacheEntry,
    (l.foldl minStep (some m)).isSome = true := by
  induction l with
  | nil => intro m; rfl
  | cons e rest ih =>
    intro m
    show (List.foldl minStep (minStep (some m) e) rest).isSome = true
    unfold minStep
    dsimp only
    split <;> exact ih _

theorem minFold_mem (l : List CacheEntry) : ∀ (acc : Option CacheEntry) m,
    l.foldl minStep acc = some m → acc = some m ∨ m ∈ l := by
  induction l with
  | nil => intro acc m h; exact Or.inl h
  | cons e rest ih =>
    intro acc m h
    rcases ih (minStep acc e) m h with hstep | hmem
    · cases acc with
      | none =>
        simp only [minStep] at hstep
        exact Or.inr (by rw [← Option.some_inj.mp hstep]; exact
          List.mem_cons_self _ _)
      | some q =>
        simp only [minStep] at hstep
        split at hstep
        · exact Or.inr (by rw [← Option.some_inj.mp hstep]; exact
            List.mem_cons_self _ _)
        · exact Or.inl hstep
    · exact Or.inr (List.mem_cons_of_mem _ hmem)

theorem minFold_le (l : List CacheEntry) : ∀ (acc : Option CacheEntry) m,
    l.foldl minStep acc = some m →
    (∀ q, acc = some q → m.lastAccessTime ≤ q.lastAccessTime) ∧
    ∀ e ∈ l, m.lastAccessTime ≤ e.lastAccessTime := by
  induction l with
  | nil =>
    intro acc m h
    refine ⟨?_, by intro e he; exact absurd he (List.not_mem_nil e)⟩
    intro q hq
    rw [hq] at h
    rw [Option.some_inj.mp h]
  | cons e rest ih =>
    intro acc m h
    obtain ⟨hacc, hrest⟩ := ih (minStep acc e) m h
    have hme : m.lastAccessTime ≤ e.lastAccessTime := by
      cases acc with
      | none => exact hacc e rfl
      | some q =>
        simp only [minStep] at hacc
        by_cases hc : e.lastAccessTime < q.lastAccessTime
        · exact hacc e (by simp [hc])
        · exact le_trans (hacc q (by simp [hc])) (le_of_not_lt hc)
    refine ⟨?_, ?_⟩
    · intro q hq
      cases acc with
      | none => cases hq
      | some q' =>
        obtain rfl : q' = q := Option.some_inj.mp hq
        simp only [minStep] at hacc
        by_cases hc : e.lastAccessTime < q'.lastAccessTime
        · exact le_trans (hacc e (by simp [hc])) (le_of_lt hc)
        · exact hacc q' (by simp [hc])
    · intro x hx
      rcases List.mem_cons.mp hx with hcase | hx'
      · rw [hcase]; exact hme
      · exact hrest x hx'

theorem minReady_spec (es : List CacheEntry) (m : CacheEntry)
    (h : minReady es = some m) :
    m ∈ es ∧ m.isReady = true ∧
    ∀ e ∈ es, e.isReady = true → m.lastAccessTime ≤ e.lastAccessTime := by
  have hmem : m ∈ es.filter CacheEntry.isReady := by
    rcases minFold_mem _ none m h with hc | hc
    · cases hc
    · exact hc
  have hin := List.mem_filter.mp hmem
  refine ⟨hin.1, hin.2, ?_⟩
  intro e he hre
  exact (minFold_le _ none m h).2 e (List.mem_filter.mpr ⟨he, hre⟩)

theorem totalBytes_zero_of_no_ready (es : List CacheEntry)
    (hall : ∀ e ∈ es, e.isReady = false) : totalBytes es = 0 := by
  induction es with
  | nil => rfl
  | cons e rest ih =>
    have he : e.isReady = false := hall e (List.mem_cons_self _ _)
    have h0 : (match e.state with
        | .ready d => d.sizeBytes
        | _ => 0) = 0 := by
      rcases e with ⟨k, st, t⟩
      cases st with
      | pending ws => rfl
      | ready d => simp [CacheEntry.isReady] at he
    have hrest := ih fun x hx => hall x (List.mem_cons_of_mem _ hx)
    simp only [totalBytes, List.map_cons, List.sum_cons] at hrest ⊢
    rw [h0, hrest]

theorem minReady_none_total (es : List CacheEntry)
    (h : minReady es = none) : totalBytes es = 0 := by
  have hfil : es.filter CacheEntry.isReady = [] := by
    cases hf : es.filter CacheEntry.isReady with
    | nil => rfl
    | cons e rest =>
      have hsome := minFold_isSome rest e
      have h' : minReady es = List.foldl minStep (some e) rest := by
        simp [minReady, hf, List.foldl_cons, minStep]
      rw [h] at h'
      rw [← h'] at hsome
      exact absurd hsome (by simp)
  refine totalBytes_zero_of_no_ready es ?_
  intro e he
  cases hre : e.isReady with
  | false => rfl
  | true =>
    have : e ∈ es.filter CacheEntry.isReady :=
      List.mem_filter.mpr ⟨he, hre⟩
    rw [hfil] at this
    exact absurd this (List.not_mem_nil e)

theorem evictLoop_spec (budget : Nat) : ∀ (fuel : Nat) (es : List CacheEntry),
    (∀ e ∈ (evictLoop fuel budget es).1, e ∈ es) ∧
    (∀ e ∈ (evictLoop fuel budget es).2, e ∈ es ∧ e.isReady = true) ∧
    (∀ e ∈ es, e.isPending = true → e ∈ (evictLoop fuel budget es).1) ∧
    (∀ a ∈ (evictLoop fuel budget es).2, ∀ b ∈ (evictLoop fuel budget es).1,
      b.isReady = true → a.lastAccessTime ≤ b.lastAccessTime) ∧
    List.Pairwise (fun a b => a.lastAccessTime ≤ b.lastAccessTime)
      (evictLoop fuel budget es).2 := by
  intro fuel
  induction fuel with
  | zero =>
    intro es
    refine ⟨fun e he => he, ?_, fun e he _ => he, ?_, ?_⟩
    · intro e he; exact absurd he (List.not_mem_nil e)
    · intro a ha; exact absurd ha (List.not_mem_nil a)
    · exact List.Pairwise.nil
  | succ fuel ih =>
    intro es
    unfold evictLoop
    by_cases hb : totalBytes es ≤ budget
    · rw [if_pos hb]
      refine ⟨fun e he => he, ?_, fun e he _ => he, ?_, ?_⟩
      · intro e he; exact absurd he (List.not_mem_nil e)
      · intro a ha; exact absurd ha (List.not_mem_nil a)
      · exact List.Pairwise.nil
    · rw [if_neg hb]
      cases hm : minReady es with
      | none =>
        refine ⟨fun e he => he, ?_, fun e he _ => he, ?_, ?_⟩
        · intro e he; exact absurd he (List.not_mem_nil e)
        · intro a ha; exact absurd ha (List.not_mem_nil a)
        · exact List.Pairwise.nil
      | some m =>
        obtain ⟨hmm, hmr, hmin⟩ := minReady_spec es m hm
        obtain ⟨ih1, ih2, ih3, ih4, ih5⟩ := ih (es.erase m)
        dsimp only
        refine ⟨?_, ?_, ?_, ?_, ?_⟩
        · intro e he
          exact List.mem_of_mem_erase (ih1 e he)
        · intro e he
          rcases List.mem_cons.mp he with hcase | he'
          · rw [hcase]; exact ⟨hmm, hmr⟩
          · obtain ⟨h1, h2⟩ := ih2 e he'
            exact ⟨List.mem_of_mem_erase h1, h2⟩
        · intro e he hpend
          have hne : e ≠ m := by
            intro heq
            rw [heq] at hpend
            rw [isReady_not_isPending m hmr] at hpend
            exact absurd hpend (by simp)
          exact ih3 e ((List.mem_erase_of_ne hne).mpr he) hpend
        · intro a ha b hbmem hbr
          rcases List.mem_cons.mp ha with hcase | ha'
          · rw [hcase]
            exact hmin b (List.mem_of_mem_erase (ih1 b hbmem)) hbr
          · exact ih4 a ha' b hbmem hbr
        · refine List.Pairwise.cons ?_ ih5
          intro b hb'
          obtain ⟨h1, h2⟩ := ih2 b hb'
          exact hmin b (List.mem_of_mem_erase h1) h2

theorem evictLoop_under_budget (budget : Nat) : ∀ (fuel : Nat)
    (es : List CacheEntry), es.length ≤ fuel →
    totalBytes (evictLoop fuel budget es).1 ≤ budget := by
  intro fuel
  induction fuel with
  | zero =>
    intro es h
    have hnil : es = [] := List.length_eq_zero.mp (Nat.le_zero.mp h)
    rw [hnil]
    show totalBytes [] ≤ budget
    exact Nat.zero_le budget
  | succ fuel ih =>
    intro es h
    unfold evictLoop
    by_cases hb : totalBytes es ≤ budget
    · rw [if_pos hb]; exact hb
    · rw [if_neg hb]
      cases hm : minReady es with
      | none =>
        exact absurd (by rw [minReady_none_total es hm]
                         exact Nat.zero_le budget) hb
      | some m =>
        dsimp only
        apply ih
        have hmm := (minReady_spec es m hm).1
        have hlen := List.length_erase_of_mem hmm
        rw [hlen]
        omega

/-- C3: when over budget, eviction removes only Ready entries, in
ascending `lastAccessTime` order (each evicted entry is no younger than
any Ready entry kept), never a Pending entry (all Pending entries
survive), and stops with the total byte size within budget. -/
theorem c3_lru_eviction_policy :
    ∀ (budget : Nat) (es : List CacheEntry),
      totalBytes es > budget →
      (∀ e ∈ (evict budget es).2,
        e ∈ es ∧ e.isReady = true ∧ e.isPending = false) ∧
      List.Pairwise (fun a b => a.lastAccessTime ≤ b.lastAccessTime)
        (evict budget es).2 ∧
      (∀ a ∈ (evict budget es).2, ∀ b ∈ (evict budget es).1,
        b.isReady = true → a.lastAccessTime ≤ b.lastAccessTime) ∧
      (∀ e ∈ es, e.isPending = true → e ∈ (evict budget es).1) ∧
      totalBytes (evict budget es).1 ≤ budget := by
  intro budget es _
  obtain ⟨_, h2, h3, h4, h5⟩ := evictLoop_spec budget es.length es
  refine ⟨?_, h5, h4, h3, evictLoop_under_budget budget es.length es le_rfl⟩
  intro e he
  obtain ⟨hm, hr⟩ := h2 e he
  exact ⟨hm, hr, isReady_not_isPending e hr⟩

/-- An over-budget entry list for the eviction scenario: two Ready
entries (8 and 2 bytes, last accessed at times 5 and 2) and one Pending
entry, against a budget of 3 bytes. -/
def esC3 : List CacheEntry :=
  [⟨("acme/widgets", "1.0.0"), .ready ⟨"acme/widgets", "1.0.0",
      [1, 2, 3, 4, 5, 6, 7, 8]⟩, 5⟩,
   ⟨("acme/gadgets", "1.0.0"), .pending [7], 1⟩,
   ⟨("acme/sprockets", "1.0.0"), .ready ⟨"acme/sprockets", "1.0.0",
      [9, 9]⟩, 2⟩]

theorem c3_lru_eviction_policy_witness :
    totalBytes (evict 3 esC3).1 ≤ 3 := by
  exact (c3_lru_eviction_policy 3 esC3 (by decide)).2.2.2.2

/-! ### Lookup/update lemmas for cache entries -/

theorem findEntry_some (es : List CacheEntry) (k : Key) (e : CacheEntry)
    (h : findEntry es k = some e) : e ∈ es ∧ e.key = k := by
  refine ⟨List.mem_of_find?_eq_some h, ?_⟩
  have := List.find?_some h
  exact of_decide_eq_true this

theorem findEntry_none (es : List CacheEntry) (k : Key)
    (h : findEntry es k = none) : ∀ e ∈ es, e.key ≠ k := by
  intro e he
  have := List.find?_eq_none.mp h e he
  simpa using this

theorem findEntry_setEntry (es : List CacheEntry) (x : CacheEntry)
    (k : Key) : findEntry (setEntry es x) k
      = if x.key = k then some x else findEntry es k := by
  induction es with
  | nil =>
    by_cases h : x.key = k <;> simp [setEntry, findEntry, List.find?, h]
  | cons e rest ih =>
    by_cases he : e.key = x.key
    · simp only [setEntry, if_pos he]
      by_cases hx : x.key = k
      · simp [findEntry, List.find?, hx]
      · have hek : ¬ e.key = k := by rw [he]; exact hx
        simp [findEntry, List.find?, hx, hek]
    · simp only [setEntry, if_neg he]
      by_cases hek : e.key = k
      · have hx : ¬ x.key = k := by
          intro hc; exact he (hek ▸ hc ▸ rfl)
        simp [findEntry, List.find?, hek, hx]
      · have h1 : findEntry (e :: setEntry rest x) k
            = findEntry (setEntry rest x) k := by
          simp [findEntry, List.find?, hek]
        have h2 : findEntry (e :: rest) k = findEntry rest k := by
          simp [findEntry, List.find?, hek]
        rw [h1, h2, ih]

theorem findEntry_append (es l : List CacheEntry) (k : Key) :
    findEntry (es ++ l) k
      = match findEntry es k with
        | some e => some e
        | none => findEntry l k := by
  induction es with
  | nil => simp [findEntry]
  | cons e rest ih =>
    by_cases h : e.key = k <;>
      simp only [findEntry, List.cons_append, List.find?] at ih ⊢ <;>
      simp [h, ih]

theorem mem_setEntry (es : List CacheEntry) (x e : CacheEntry)
    (h : e ∈ setEntry es x) : e = x ∨ e ∈ es := by
  induction es with
  | nil =>
    rcases List.mem_singleton.mp h with h'
    exact Or.inl h'
  | cons e' rest ih =>
    by_cases he : e'.key = x.key
    · rw [setEntry, if_pos he] at h
      rcases List.mem_cons.mp h with h' | h'
      · exact Or.inl h'
      · exact Or.inr (List.mem_cons_of_mem _ h')
    · rw [setEntry, if_neg he] at h
      rcases List.mem_cons.mp h with h' | h'
      · exact Or.inr (h' ▸ List.mem_cons_self _ _)
      · rcases ih h' with h'' | h''
        · exact Or.inl h''
        · exact Or.inr (List.mem_cons_of_mem _ h'')

theorem key_unique (es : List CacheEntry) (h : distinctKeys es)
    (a b : CacheEntry) (ha : a ∈ es) (hb : b ∈ es)
    (hk : a.key = b.key) : a = b := by
  induction es with
  | nil => exact absurd ha (List.not_mem_nil a)
  | cons e rest ih =>
    have hnd : e.key ∉ rest.map CacheEntry.key ∧
        (rest.map CacheEntry.key).Nodup := by
      simpa [distinctKeys] using h
    rcases List.mem_cons.mp ha with ha' | ha' <;>
      rcases List.mem_cons.mp hb with hb' | hb'
    · rw [ha', hb']
    · exfalso
      apply hnd.1
      rw [← ha', hk]
      exact List.mem_map_of_mem CacheEntry.key hb'
    · exfalso
      apply hnd.1
      rw [← hb', ← hk]
      exact List.mem_map_of_mem CacheEntry.key ha'
    · exact ih hnd.2 ha' hb'

theorem distinctKeys_setEntry (es : List CacheEntry) (x : CacheEntry)
    (h : distinctKeys es) : distinctKeys (setEntry es x) := by
  induction es with
  | nil => simp [setEntry, distinctKeys]
  | cons e rest ih =>
    have hnd : e.key ∉ rest.map CacheEntry.key ∧
        (rest.map CacheEntry.key).Nodup := by
      simpa [distinctKeys] using h
    by_cases he : e.key = x.key
    · rw [setEntry, if_pos he]
      simp only [distinctKeys, List.map_cons, List.nodup_cons]
      exact ⟨he ▸ hnd.1, hnd.2⟩
    · rw [setEntry, if_neg he]
      simp only [distinctKeys, List.map_cons, List.nodup_cons]
      refine ⟨?_, ih hnd.2⟩
      intro hc
      rcases List.mem_map.mp hc with ⟨y, hy, hyk⟩
      rcases mem_setEntry rest x y hy with rfl | hy'
      · exact he hyk.symm
      · exact hnd.1 (hyk ▸ List.mem_map_of_mem CacheEntry.key hy')

theorem distinctKeys_removeEntry (es : List CacheEntry) (k : Key)
    (h : distinctKeys es) : distinctKeys (removeEntry es k) :=
  ((List.filter_sublist es).map CacheEntry.key).nodup h

theorem findEntry_removeEntry_ne (es : List CacheEntry) (kr k : Key)
    (hne : kr ≠ k) : findEntry (removeEntry es kr) k = findEntry es k := by
  induction es with
  | nil => rfl
  | cons e rest ih =>
    by_cases he : e.key = kr
    · have hek : e.key ≠ k := fun hc => hne (he ▸ hc)
      have h1 : removeEntry (e :: rest) kr = removeEntry rest kr := by
        simp [removeEntry, List.filter_cons, he]
      have h2 : findEntry (e :: rest) k = findEntry rest k := by
        simp [findEntry, List.find?, hek]
      rw [h1, h2, ih]
    · have h1 : removeEntry (e :: rest) kr = e :: removeEntry rest kr := by
        simp [removeEntry, List.filter_cons, he]
      rw [h1]
      by_cases hek : e.key = k
      · simp [findEntry, List.find?, hek]
      · have h2 : findEntry (e :: removeEntry rest kr) k
            = findEntry (removeEntry rest kr) k := by
          simp [findEntry, List.find?, hek]
        have h3 : findEntry (e :: rest) k = findEntry rest k := by
          simp [findEntry, List.find?, hek]
        rw [h2, h3, ih]

theorem evictLoop_rem_sublist (budget : Nat) : ∀ (fuel : Nat)
    (es : List CacheEntry), (evictLoop fuel budget es).1.Sublist es := by
  intro fuel
  induction fuel with
  | zero => intro es; exact List.Sublist.refl es
  | succ fuel ih =>
    intro es
    unfold evictLoop
    by_cases hb : totalBytes es ≤ budget
    · rw [if_pos hb]
    · rw [if_neg hb]
      cases hm : minReady es with
      | none => exact List.Sublist.refl es
      | some m =>
        exact List.Sublist.trans (ih (es.erase m)) (List.erase_sublist m es)

theorem distinctKeys_evict (budget : Nat) (es : List CacheEntry)
    (h : distinctKeys es) : distinctKeys (evict budget es).1 :=
  ((evictLoop_rem_sublist budget es.length es).map CacheEntry.key).nodup h

/-- C6: with a Ready entry for a key, an arriving `getOrFetch` is served
the cached document unchanged, the entry stays Ready with that same
document, and no cache event can change the key's document while the
entry survives (only eviction removes it) — reads are idempotent and
byte-identical. -/
theorem c6_ready_reads_idempotent :
    ∀ (s : CacheState) (k : Key) (d : SchemaDocument) (c : Nat),
      distinctKeys s.entries →
      entryStateAt s k = some (.ready d) →
      (cacheStep s (.arrive c k)).2 = [(c, .success d)] ∧
      entryStateAt (cacheStep s (.arrive c k)).1 k = some (.ready d) ∧
      ∀ (ev : Event) (d' : SchemaDocument),
        entryStateAt (cacheStep s ev).1 k = some (.ready d') → d' = d := by
  intro s k d c hdk hst
  rcases hfe : findEntry s.entries k with _ | e0
  · rw [entryStateAt, hfe] at hst; exact absurd hst (by simp)
  · rw [entryStateAt, hfe] at hst
    have hstate : e0.state = .ready d := by simpa using hst
    obtain ⟨hmem0, hkey0⟩ := findEntry_some s.entries k e0 hfe
    have hstep : cacheStep s (.arrive c k)
        = ({ s with
              entries := setEntry s.entries ⟨k, .ready d, s.clock⟩
              clock := s.clock + 1 }, [(c, .success d)]) := by
      simp [cacheStep, hfe, hstate]
    refine ⟨by rw [hstep], ?_, ?_⟩
    · rw [hstep]
      show entryStateAt
        { s with
            entries := setEntry s.entries ⟨k, .ready d, s.clock⟩
            clock := s.clock + 1 } k = some (.ready d)
      rw [entryStateAt]
      show (findEntry (setEntry s.entries ⟨k, .ready d, s.clock⟩) k).map
        CacheEntry.state = some (.ready d)
      rw [findEntry_setEntry]
      simp
    · intro ev d' h'
      cases ev with
      | arrive c' k' =>
        rcases hfe' : findEntry s.entries k' with _ | e'
        · have hne : k' ≠ k := by
            intro heq; rw [heq, hfe] at hfe'; exact Option.noConfusion hfe'
          rw [show cacheStep s (.arrive c' k')
              = ({ s with
                    entries := s.entries ++ [⟨k', .pending [c'], s.clock⟩]
                    clock := s.clock + 1
                    fetchLog := s.fetchLog ++ [k'] }, []) from by
            simp [cacheStep, hfe']] at h'
          rw [entryStateAt] at h'
          rw [show findEntry
                (s.entries ++ [⟨k', .pending [c'], s.clock⟩]) k
              = some e0 from by rw [findEntry_append, hfe]] at h'
          have : EntryState.ready d = EntryState.ready d' := by
            rw [← hstate]; simpa using h'
          exact (EntryState.ready.inj this).symm
        · obtain ⟨hmem', hkey'⟩ := findEntry_some s.entries k' e' hfe'
          cases hstate' : e'.state with
          | pending ws =>
            have hne : k' ≠ k := by
              intro heq
              rw [heq, hfe] at hfe'
              have : e' = e0 := (Option.some_inj.mp hfe').symm
              rw [this, hstate] at hstate'
              exact EntryState.noConfusion hstate'
            rw [show cacheStep s (.arrive c' k')
                = ({ s with
                      entries := setEntry s.entries
                        ⟨k', .pending (ws ++ [c']), e'.lastAccessTime⟩
                      clock := s.clock + 1 }, []) from by
              simp [cacheStep, hfe', hstate']] at h'
            rw [entryStateAt] at h'
            rw [show findEntry (setEntry s.entries
                  ⟨k', .pending (ws ++ [c']), e'.lastAccessTime⟩) k
                = some e0 from by rw [findEntry_setEntry]; simp [hne, hfe]]
              at h'
            have : EntryState.ready d = EntryState.ready d' := by
              rw [← hstate]; simpa using h'
            exact (EntryState.ready.inj this).symm
          | ready d2 =>
            rw [show cacheStep s (.arrive c' k')
                = ({ s with
                      entries := setEntry s.entries ⟨k', .ready d2, s.clock⟩
                      clock := s.clock + 1 }, [(c', .success d2)]) from by
              simp [cacheStep, hfe', hstate']] at h'
            rw [entryStateAt] at h'
            by_cases heq : k' = k
            · have he0 : e' = e0 := by
                rw [heq] at hfe'; rw [hfe] at hfe'
                exact (Option.some_inj.mp hfe').symm
              have hd2 : d2 = d := by
                rw [he0, hstate] at hstate'
                exact EntryState.ready.inj hstate'.symm
              rw [show findEntry
                    (setEntry s.entries ⟨k', .ready d2, s.clock⟩) k
                  = some ⟨k', .ready d2, s.clock⟩ from by
                rw [findEntry_setEntry]; simp [heq]] at h'
              have : EntryState.ready d2 = EntryState.ready d' := by
                simpa using h'
              rw [← hd2]
              exact (EntryState.ready.inj this).symm
            · rw [show findEntry
                    (setEntry s.entries ⟨k', .ready d2, s.clock⟩) k
                  = some e0 from by
                rw [findEntry_setEntry]; simp [heq, hfe]] at h'
              have : EntryState.ready d = EntryState.ready d' := by
                rw [← hstate]; simpa using h'
              exact (EntryState.ready.inj this).symm
      | complete k' res =>
        rcases hfe' : findEntry s.entries k' with _ | e'
        · rw [show cacheStep s (.complete k' res) = (s, []) from by
            simp [cacheStep, hfe']] at h'
          rw [entryStateAt, hfe] at h'
          have : EntryState.ready d = EntryState.ready d' := by
            rw [← hstate]; simpa using h'
          exact (EntryState.ready.inj this).symm
        · obtain ⟨hmem', hkey'⟩ := findEntry_some s.entries k' e' hfe'
          cases hstate' : e'.state with
          | ready d2 =>
            rw [show cacheStep s (.complete k' res) = (s, []) from by
              simp [cacheStep, hfe', hstate']] at h'
            rw [entryStateAt, hfe] at h'
            have : EntryState.ready d = EntryState.ready d' := by
              rw [← hstate]; simpa using h'
            exact (EntryState.ready.inj this).symm
          | pending ws =>
            have hne : k' ≠ k := by
              intro heq
              rw [heq, hfe] at hfe'
              have : e' = e0 := (Option.some_inj.mp hfe').symm
              rw [this, hstate] at hstate'
              exact EntryState.noConfusion hstate'
            cases res with
            | success d2 =>
              rw [show cacheStep s (.complete k' (.success d2))
                  = ({ s with
                        entries := (evict s.budget (setEntry s.entries
                          ⟨k', .ready d2, s.clock⟩)).1
                        clock := s.clock + 1 },
                     ws.map fun w => (w, FetchOutcome.success d2)) from by
                simp [cacheStep, hfe', hstate']] at h'
              rw [entryStateAt] at h'
              rcases hfe'' : findEntry (evict s.budget (setEntry s.entries
                  ⟨k', .ready d2, s.clock⟩)).1 k with _ | e''
              · rw [hfe''] at h'; exact absurd h' (by simp)
              · rw [hfe''] at h'
                obtain ⟨hmem'', hkey''⟩ := findEntry_some _ k e'' hfe''
                have hsub : e'' ∈ setEntry s.entries
                    ⟨k', .ready d2, s.clock⟩ :=
                  (evictLoop_rem_sublist s.budget _ _).subset hmem''
                rcases mem_setEntry _ _ _ hsub with hcase | hmemes
                · exfalso
                  apply hne
                  rw [← hkey'']
                  rw [hcase]
                · have he0 : e'' = e0 :=
                    key_unique s.entries hdk e'' e0 hmemes hmem0
                      (by rw [hkey'', hkey0])
                  have : EntryState.ready d = EntryState.ready d' := by
                    rw [← hstate, ← he0]; simpa using h'
                  exact (EntryState.ready.inj this).symm
            | failure =>
              rw [show cacheStep s (.complete k' .failure)
                  = ({ s with
                        entries := removeEntry s.entries k'
                        clock := s.clock + 1 },
                     ws.map fun w => (w, FetchOutcome.failure)) from by
                simp [cacheStep, hfe', hstate']] at h'
              rw [entryStateAt] at h'
              rw [findEntry_removeEntry_ne s.entries k' k hne, hfe] at h'
              have : EntryState.ready d = EntryState.ready d' := by
                rw [← hstate]; simpa using h'
              exact (EntryState.ready.inj this).symm

/-- A cache holding one Ready entry, for concrete read scenarios. -/
def sReady : CacheState :=
  ⟨[⟨("acme/widgets", "0.9.0"),
      .ready ⟨"acme/widgets", "0.9.0", [4, 2]⟩, 0⟩],
    10, 1, [("acme/widgets", "0.9.0")]⟩

theorem c6_ready_reads_idempotent_witness :
    (cacheStep sReady (.arrive 3 ("acme/widgets", "0.9.0"))).2
      = [(3, .success ⟨"acme/widgets", "0.9.0", [4, 2]⟩)] ∧
    entryStateAt (cacheStep sReady (.arrive 3 ("acme/widgets", "0.9.0"))).1
      ("acme/widgets", "0.9.0")
      = some (.ready ⟨"acme/widgets", "0.9.0", [4, 2]⟩) := by
  have h := c6_ready_reads_idempotent sReady ("acme/widgets", "0.9.0")
    ⟨"acme/widgets", "0.9.0", [4, 2]⟩ 3
    (by show (List.map CacheEntry.key sReady.entries).Nodup; decide)
    (by decide)
  exact ⟨h.1, h.2.1⟩

theorem distinctKeys_append_fresh (es : List CacheEntry) (x : CacheEntry)
    (h : distinctKeys es) (hf : findEntry es x.key = none) :
    distinctKeys (es ++ [x]) := by
  have hall := findEntry_none es x.key hf
  rw [distinctKeys, List.map_append, List.nodup_append]
  refine ⟨h, List.nodup_singleton x.key, ?_⟩
  intro a ha hb
  rcases List.mem_map.mp ha with ⟨e, he, hek⟩
  have : a = x.key := by simpa using hb
  exact hall e he (by rw [hek, this])

/-- C1: single-flight per (name, version) key — a caller arriving while
the key is Pending joins the waiter set without issuing a fetch, the
in-flight fetch's completion hands the identical outcome to every waiter,
a fetch is issued only by the first arrival (when no entry exists), fetch
completion never issues a fetch, and every step keeps at most one entry
per key. -/
theorem c1_single_flight :
    ∀ (s : CacheState) (c : Nat) (k : Key) (res : FetchOutcome),
      (∀ ws, entryStateAt s k = some (.pending ws) →
        (cacheStep s (.arrive c k)).1.fetchLog = s.fetchLog ∧
        entryStateAt (cacheStep s (.arrive c k)).1 k
          = some (.pending (ws ++ [c])) ∧
        (cacheStep s (.complete k res)).2 = ws.map fun w => (w, res)) ∧
      (entryStateAt s k = none →
        (cacheStep s (.arrive c k)).1.fetchLog = s.fetchLog ++ [k] ∧
        entryStateAt (cacheStep s (.arrive c k)).1 k
          = some (.pending [c])) ∧
      (∀ (k' : Key) (res' : FetchOutcome),
        (cacheStep s (.complete k' res')).1.fetchLog = s.fetchLog) ∧
      (∀ ev : Event, distinctKeys s.entries →
        distinctKeys (cacheStep s ev).1.entries) := by
  intro s c k res
  refine ⟨?_, ?_, ?_, ?_⟩
  · intro ws hst
    rcases hfe : findEntry s.entries k with _ | e0
    · rw [entryStateAt, hfe] at hst; exact absurd hst (by simp)
    · rw [entryStateAt, hfe] at hst
      have hstate : e0.state = .pending ws := by simpa using hst
      have hstep : cacheStep s (.arrive c k)
          = ({ s with
                entries := setEntry s.entries
                  ⟨k, .pending (ws ++ [c]), e0.lastAccessTime⟩
                clock := s.clock + 1 }, []) := by
        simp [cacheStep, hfe, hstate]
      have hcomp : cacheStep s (.complete k res)
          = (match res with
             | .success d =>
               ({ s with
                   entries := (evict s.budget
                     (setEntry s.entries ⟨k, .ready d, s.clock⟩)).1
                   clock := s.clock + 1 }, ws.map fun w => (w, res))
             | .failure =>
               ({ s with
                   entries := removeEntry s.entries k
                   clock := s.clock + 1 }, ws.map fun w => (w, res))) := by
        cases res <;> simp [cacheStep, hfe, hstate]
      refine ⟨by rw [hstep], ?_, ?_⟩
      · rw [hstep]
        rw [entryStateAt]
        show (findEntry (setEntry s.entries
          ⟨k, .pending (ws ++ [c]), e0.lastAccessTime⟩) k).map
            CacheEntry.state = some (.pending (ws ++ [c]))
        rw [findEntry_setEntry]
        simp
      · rw [hcomp]
        cases res <;> rfl
  · intro hst
    have hfe : findEntry s.entries k = none := by
      rw [entryStateAt] at hst
      exact Option.map_eq_none.mp hst
    have hstep : cacheStep s (.arrive c k)
        = ({ s with
              entries := s.entries ++ [⟨k, .pending [c], s.clock⟩]
              clock := s.clock + 1
              fetchLog := s.fetchLog ++ [k] }, []) := by
      simp [cacheStep, hfe]
    refine ⟨by rw [hstep], ?_⟩
    rw [hstep, entryStateAt]
    show (findEntry (s.entries ++ [⟨k, .pending [c], s.clock⟩]) k).map
      CacheEntry.state = some (.pending [c])
    rw [findEntry_append, hfe]
    simp [findEntry, List.find?]
  · intro k' res'
    rcases hfe : findEntry s.entries k' with _ | e'
    · simp [cacheStep, hfe]
    · cases hstate : e'.state with
      | pending ws => cases res' <;> simp [cacheStep, hfe, hstate]
      | ready d => simp [cacheStep, hfe, hstate]
  · intro ev hdk
    cases ev with
    | arrive c' k' =>
      rcases hfe : findEntry s.entries k' with _ | e'
      · rw [show (cacheStep s (.arrive c' k')).1.entries
            = s.entries ++ [⟨k', .pending [c'], s.clock⟩] from by
          simp [cacheStep, hfe]]
        exact distinctKeys_append_fresh s.entries _ hdk hfe
      · cases hstate : e'.state with
        | pending ws =>
          rw [show (cacheStep s (.arrive c' k')).1.entries
              = setEntry s.entries
                  ⟨k', .pending (ws ++ [c']), e'.lastAccessTime⟩ from by
            simp [cacheStep, hfe, hstate]]
          exact distinctKeys_setEntry s.entries _ hdk
        | ready d =>
          rw [show (cacheStep s (.arrive c' k')).1.entries
              = setEntry s.entries ⟨k', .ready d, s.clock⟩ from by
            simp [cacheStep, hfe, hstate]]
          exact distinctKeys_setEntry s.entries _ hdk
    | complete k' res' =>
      rcases hfe : findEntry s.entries k' with _ | e'
      · rw [show (cacheStep s (.complete k' res')).1.entries
            = s.entries from by simp [cacheStep, hfe]]
        exact hdk
      · cases hstate : e'.state with
        | ready d =>
          rw [show (cacheStep s (.complete k' res')).1.entries
              = s.entries from by simp [cacheStep, hfe, hstate]]
          exact hdk
        | pending ws =>
          cases res' with
          | success d =>
            rw [show (cacheStep s (.complete k' (.success d))).1.entries
                = (evict s.budget (setEntry s.entries
                    ⟨k', .ready d, s.clock⟩)).1 from by
              simp [cacheStep, hfe, hstate]]
            exact distinctKeys_evict s.budget _
              (distinctKeys_setEntry s.entries _ hdk)
          | failure =>
            rw [show (cacheStep s (.complete k' .failure)).1.entries
                = removeEntry s.entries k' from by
              simp [cacheStep, hfe, hstate]]
            exact distinctKeys_removeEntry s.entries k' hdk

/-- A cache holding one Pending entry with two waiters, for concrete
single-flight scenarios. -/
def sPend : CacheState :=
  ⟨[⟨("acme/widgets", "0.9.0"), .pending [1, 2], 0⟩],
    10, 1, [("acme/widgets", "0.9.0")]⟩

theorem c1_single_flight_witness :
    (cacheStep sPend (.arrive 3 ("acme/widgets", "0.9.0"))).1.fetchLog
      = sPend.fetchLog ∧
    entryStateAt (cacheStep sPend (.arrive 3 ("acme/widgets", "0.9.0"))).1
      ("acme/widgets", "0.9.0") = some (.pending [1, 2, 3]) ∧
    (cacheStep sPend (.complete ("acme/widgets", "0.9.0") .failure)).2
      = [(1, .failure), (2, .failure)] ∧
    (cacheStep cache0 (.arrive 3 ("acme/widgets", "0.9.0"))).1.fetchLog
      = cache0.fetchLog ++ [("acme/widgets", "0.9.0")] := by
  have h1 := (c1_single_flight sPend 3 ("acme/widgets", "0.9.0")
    .failure).1 [1, 2] (by decide)
  have h2 := (c1_single_flight cache0 3 ("acme/widgets", "0.9.0")
    .failure).2.1 (by decide)
  exact ⟨h1.1, h1.2.1, h1.2.2, h2.1⟩

end Spec2Proof
